import Mathlib

/-!
Verification of the move-ordering subsystem header (movepick.h): the
adaptive statistics tables (Stats, FromToStats), the Stages enumeration,
the generators dispatch table, and a model of the staged move picker.
Machine integers never overflow in the verified regime (values stay far
below 2^31), so table entries are embedded as unbounded integers and the
C++ truncating division `/` as Int.tdiv.
-/

/-- Piece index; PIECE_NB = 16 in the engine's types. -/
abbrev Piece := Fin 16

/-- Square index; SQUARE_NB = 64. -/
abbrev Square := Fin 64

/-- Color index; COLOR_NB = 2. -/
abbrev Color := Fin 2

/-- A move as the statistics tables see it: an origin square (from_sq) and a
destination square (to_sq). -/
structure MoveFT where
  fromSq : Square
  toSq : Square
deriving DecidableEq

/-- Stats::Max = Value(1 << 28) (movepick.h line 43). -/
def statsMax : Int := 2 ^ 28

/-- The decay divisor `CM ? 936 : 324` of Stats<T,CM>::update. -/
def divisorOf (cm : Bool) : Int := if cm then 936 else 324

/-- Embeds the Value branch of Stats<T,CM>::update (movepick.h lines 51-58):
the guard rejecting |v| >= 324, then the two compound assignments
`e -= e * |v| / (CM ? 936 : 324); e += v * 32` with C++ truncating
integer division. -/
def valueUpdate (cm : Bool) (s v : Int) : Int :=
  if 324 ≤ |v| then s
  else s - Int.tdiv (s * |v|) (divisorOf cm) + v * 32

/-- Stats<Value,CM>'s table: PIECE_NB × SQUARE_NB entries. -/
abbrev ScoreTable := Piece → Square → Int

/-- Stats::clear — memset of the table to zero. -/
def clearedScores : ScoreTable := fun _ _ => 0

/-- Stats<Value,CM>::update(Piece, Square, Value): rewrites the entry
table[pc][to] by the decay recurrence; other entries untouched. -/
def scoreUpdate (cm : Bool) (t : ScoreTable) (pc : Piece) (sq : Square) (v : Int) : ScoreTable :=
  fun p s => if p = pc ∧ s = sq then valueUpdate cm (t pc sq) v else t p s

/-- Stats<Move>'s table (stored moves encoded as naturals). -/
abbrev MoveTable := Piece → Square → Nat

/-- Stats<Move>::update(Piece, Square, Move): plain overwrite (line 49). -/
def moveUpdate (t : MoveTable) (pc : Piece) (sq : Square) (m : Nat) : MoveTable :=
  fun p s => if p = pc ∧ s = sq then m else t p s

/-- Reading a Stats entry for a concrete move: the operator[] chain
table[pc][to_sq(m)] — keyed only by moving piece and destination square. -/
def scoreLookup (t : ScoreTable) (pc : Piece) (m : MoveFT) : Int := t pc m.toSq

/-- Reading a Stats<Move> entry for a concrete move. -/
def moveLookup (t : MoveTable) (pc : Piece) (m : MoveFT) : Nat := t pc m.toSq

/-- FromToStats' table: COLOR_NB × SQUARE_NB × SQUARE_NB entries. -/
abbrev FromToTable := Color → Square → Square → Int

/-- FromToStats::clear. -/
def clearedFromTo : FromToTable := fun _ _ _ => 0

/-- FromToStats::get (movepick.h line 71). -/
def fromToGet (t : FromToTable) (c : Color) (m : MoveFT) : Int := t c m.fromSq m.toSq

/-- FromToStats::update (movepick.h lines 74-84): guard, then the decay
recurrence with fixed divisor 324 on entry table[c][from_sq(m)][to_sq(m)]. -/
def fromToUpdate (t : FromToTable) (c : Color) (m : MoveFT) (v : Int) : FromToTable :=
  if 324 ≤ |v| then t
  else fun c' f s =>
    if c' = c ∧ f = m.fromSq ∧ s = m.toSq then
      t c' f s - Int.tdiv (t c' f s * |v|) 324 + v * 32
    else t c' f s

/-- A history-update event: (piece, destination square, observed value). -/
abbrev ScoreEvent := Piece × Square × Int

/-- A whole sequence of Stats<Value,CM>::update calls, applied in order. -/
def applyScoreUpdates (cm : Bool) (t : ScoreTable) (us : List ScoreEvent) : ScoreTable :=
  us.foldl (fun acc u => scoreUpdate cm acc u.1 u.2.1 u.2.2) t

/-! ### Arithmetic facts about the decay recurrence -/

/-- Truncating division of a nonnegative numerator by a positive divisor is
floor division: the standard remainder bounds. -/
theorem tdiv_bounds (n d : Int) (hn : 0 ≤ n) (hd : 0 < d) :
    d * Int.tdiv n d ≤ n ∧ n < d * Int.tdiv n d + d := by
  rw [Int.tdiv_eq_ediv hn (le_of_lt hd)]
  have h1 := Int.ediv_add_emod n d
  have h2 := Int.emod_nonneg n (ne_of_gt hd)
  have h3 := Int.emod_lt_of_pos n hd
  constructor <;> linarith

/-- The update recurrence is odd: negating both the entry and the observed
value negates the result. -/
theorem valueUpdate_neg (cm : Bool) (s v : Int) :
    valueUpdate cm (-s) (-v) = -valueUpdate cm s v := by
  unfold valueUpdate
  rw [abs_neg]
  by_cases h : 324 ≤ |v|
  · rw [if_pos h, if_pos h]
  · rw [if_neg h, if_neg h]
    have hmul : -s * |v| = -(s * |v|) := by ring
    rw [hmul, Int.neg_tdiv]
    ring

/-- One update keeps a nonnegative entry bounded by 30888 = 33·936 in both
directions. -/
theorem valueUpdate_bound_nonneg (cm : Bool) (s v : Int) (hs0 : 0 ≤ s) (hsK : s ≤ 30888) :
    -30888 ≤ valueUpdate cm s v ∧ valueUpdate cm s v ≤ 30888 := by
  have hd1 : 324 ≤ divisorOf cm := by cases cm <;> simp [divisorOf]
  have hd2 : divisorOf cm ≤ 936 := by cases cm <;> simp [divisorOf]
  unfold valueUpdate
  set d := divisorOf cm with hdd
  have hdpos : (0 : Int) < d := by linarith
  by_cases hg : 324 ≤ |v|
  · rw [if_pos hg]
    constructor <;> linarith
  · rw [if_neg hg]
    have hvb := abs_lt.mp (not_le.mp hg)
    rcases le_or_lt v 0 with hv0 | hv1
    · rw [abs_of_nonpos hv0]
      have hn : 0 ≤ s * -v := mul_nonneg hs0 (by linarith)
      obtain ⟨l1, _⟩ := tdiv_bounds (s * -v) d hn hdpos
      have hq0 : 0 ≤ Int.tdiv (s * -v) d := Int.tdiv_nonneg hn (le_of_lt hdpos)
      have hsv : s * -v ≤ s * d := mul_le_mul_of_nonneg_left (by linarith) hs0
      have hqs : Int.tdiv (s * -v) d ≤ s := by
        have hms : d * Int.tdiv (s * -v) d ≤ d * s := by
          calc d * Int.tdiv (s * -v) d ≤ s * -v := l1
          _ ≤ s * d := hsv
          _ = d * s := mul_comm s d
        exact le_of_mul_le_mul_left hms hdpos
      constructor <;> linarith
    · rw [abs_of_pos hv1]
      have hn : 0 ≤ s * v := mul_nonneg hs0 (le_of_lt hv1)
      obtain ⟨l1, l2⟩ := tdiv_bounds (s * v) d hn hdpos
      have h1 : 0 ≤ (30888 - s) * (d - v) := mul_nonneg (by linarith) (by linarith)
      have h2 : 0 ≤ (30888 - 32 * d) * (v - 1) := mul_nonneg (by linarith) (by linarith)
      have hsv : s * v ≤ s * d := mul_le_mul_of_nonneg_left (by linarith) hs0
      have hqs : Int.tdiv (s * v) d ≤ s := by
        have hms : d * Int.tdiv (s * v) d ≤ d * s := by
          calc d * Int.tdiv (s * v) d ≤ s * v := l1
          _ ≤ s * d := hsv
          _ = d * s := mul_comm s d
        exact le_of_mul_le_mul_left hms hdpos
      constructor
      · linarith
      · have key : d * (s - Int.tdiv (s * v) d + v * 32) ≤ d * 30888 := by
          nlinarith [h1, h2, l2, hd2]
        exact le_of_mul_le_mul_left key hdpos

/-- One update keeps any entry of magnitude at most 30888 at magnitude at
most 30888. -/
theorem valueUpdate_abs_le (cm : Bool) (s v : Int) (hs : |s| ≤ 30888) :
    |valueUpdate cm s v| ≤ 30888 := by
  rcases le_or_lt 0 s with hs0 | hs0
  · have h := valueUpdate_bound_nonneg cm s v hs0 (le_trans (le_abs_self s) hs)
    rw [abs_le]
    exact h
  · have hs0' : 0 ≤ -s := by linarith
    have hK : -s ≤ 30888 := le_trans (neg_le_abs s) hs
    have h := valueUpdate_bound_nonneg cm (-s) (-v) hs0' hK
    rw [valueUpdate_neg cm s v] at h
    rw [abs_le]
    constructor <;> linarith [h.1, h.2]

/-- Entrywise bound propagated through a whole update sequence. -/
theorem applyScoreUpdates_bound (cm : Bool) (us : List ScoreEvent) :
    ∀ t : ScoreTable, (∀ pc sq, |t pc sq| ≤ 30888) →
      ∀ pc sq, |applyScoreUpdates cm t us pc sq| ≤ 30888 := by
  induction us with
  | nil => intro t ht pc sq; exact ht pc sq
  | cons u rest ih =>
    intro t ht pc sq
    have hstep : applyScoreUpdates cm t (u :: rest)
        = applyScoreUpdates cm (scoreUpdate cm t u.1 u.2.1 u.2.2) rest := rfl
    rw [hstep]
    refine ih _ (fun p s => ?_) pc sq
    simp only [scoreUpdate]
    by_cases hps : p = u.1 ∧ s = u.2.1
    · rw [if_pos hps]
      exact valueUpdate_abs_le _ _ _ (ht _ _)
    · rw [if_neg hps]
      exact ht _ _

/-! ### Claims C1-C4 and C9 -/

/-- Claim C1: an update with |v| < 324 transforms the stored entry s into
s - s·|v|/d + v·32 with truncating integer division, where d = 324 for the
plain history table and the from-to table and d = 936 for the
countermove-flavored table. -/
theorem c1_update_formula (cm : Bool) (t : ScoreTable) (ft : FromToTable)
    (pc : Piece) (sq : Square) (c : Color) (m : MoveFT) (v : Int)
    (h : |v| < 324) :
    scoreUpdate cm t pc sq v pc sq
      = t pc sq - Int.tdiv (t pc sq * |v|) (if cm then 936 else 324) + v * 32
    ∧ fromToUpdate ft c m v c m.fromSq m.toSq
      = ft c m.fromSq m.toSq - Int.tdiv (ft c m.fromSq m.toSq * |v|) 324 + v * 32 := by
  have hg : ¬ 324 ≤ |v| := not_le.mpr h
  constructor
  · simp [scoreUpdate, valueUpdate, divisorOf, hg]
  · simp [fromToUpdate, hg]

/-- Witness for C1: the formula evaluated at a concrete table state and
observed value, for the countermove divisor and the from-to divisor. -/
theorem c1_update_formula_witness :
    |(100 : Int)| < 324
    ∧ (scoreUpdate true (fun _ _ => 500) 3 7 100 3 7
        = 500 - Int.tdiv (500 * |(100 : Int)|) (if true then 936 else 324) + 100 * 32
      ∧ fromToUpdate (fun _ _ _ => 200) 1 ⟨2, 9⟩ 100 1 2 9
        = 200 - Int.tdiv (200 * |(100 : Int)|) 324 + 100 * 32) :=
  ⟨by decide,
   c1_update_formula true (fun _ _ => 500) (fun _ _ _ => 200) 3 7 1 ⟨2, 9⟩ 100 (by decide)⟩

/-- Claim C2: starting from the cleared table, under any update sequence
whose observed values are strictly inside the clipping threshold, every
stored entry stays strictly below Max = 2^28 in magnitude at all times
(all prefixes being instances of the statement). -/
theorem c2_bounded_below_max (cm : Bool) (us : List ScoreEvent)
    (h : ∀ u ∈ us, |u.2.2| < 324) (pc : Piece) (sq : Square) :
    |applyScoreUpdates cm clearedScores us pc sq| < statsMax := by
  have hb := applyScoreUpdates_bound cm us clearedScores
    (fun _ _ => by simp [clearedScores]) pc sq
  have hlt : (30888 : Int) < statsMax := by decide
  linarith

/-- Witness for C2: a concrete in-threshold update sequence. -/
theorem c2_bounded_below_max_witness :
    (∀ u ∈ [((3 : Piece), (5 : Square), (100 : Int)), (3, 5, -50)], |u.2.2| < 324)
    ∧ |applyScoreUpdates false clearedScores
        [((3 : Piece), (5 : Square), (100 : Int)), (3, 5, -50)] 3 5| < statsMax :=
  ⟨by decide, c2_bounded_below_max false _ (by decide) 3 5⟩

/-- Claim C3: an update with |v| ≥ 324 leaves the entire table unchanged —
a silent no-op for both Stats flavors and for FromToStats. -/
theorem c3_out_of_range_noop (cm : Bool) (t : ScoreTable) (ft : FromToTable)
    (pc : Piece) (sq : Square) (c : Color) (m : MoveFT) (v : Int)
    (h : 324 ≤ |v|) :
    scoreUpdate cm t pc sq v = t ∧ fromToUpdate ft c m v = ft := by
  constructor
  · funext p s
    by_cases hps : p = pc ∧ s = sq
    · obtain ⟨rfl, rfl⟩ := hps
      simp [scoreUpdate, valueUpdate, if_pos h]
    · simp [scoreUpdate, if_neg hps]
  · simp [fromToUpdate, if_pos h]

/-- Witness for C3: an out-of-range value applied to concrete tables. -/
theorem c3_out_of_range_noop_witness :
    324 ≤ |(400 : Int)|
    ∧ (scoreUpdate false (fun _ _ => 5) 2 11 400 = (fun _ _ => 5)
      ∧ fromToUpdate (fun _ _ _ => 7) 0 ⟨1, 2⟩ 400 = (fun _ _ _ => 7)) :=
  ⟨by decide,
   c3_out_of_range_noop false (fun _ _ => 5) (fun _ _ _ => 7) 2 11 0 ⟨1, 2⟩ 400 (by decide)⟩

/-- Claim C4: from a cleared table, update with value 100 stores exactly
100·32 = 3200, and a further update with value -50 on the same key stores
exactly 3200 - 3200·50/324 - 50·32 = 1107 (truncating division). -/
theorem c4_scenario (pc : Piece) (sq : Square) :
    scoreUpdate false clearedScores pc sq 100 pc sq = 3200
    ∧ scoreUpdate false (scoreUpdate false clearedScores pc sq 100) pc sq (-50) pc sq
        = 1107 := by
  have h1 : valueUpdate false 0 100 = 3200 := by decide
  have h2 : valueUpdate false 3200 (-50) = 1107 := by decide
  constructor
  · simp [scoreUpdate, clearedScores, h1]
  · simp [scoreUpdate, clearedScores, h1, h2]

/-- Claim C9: Stats tables are keyed only by (moving piece, destination
square): after an update at (pc, to), a lookup for any move with that piece
and destination observes the new entry regardless of origin square — two
moves differing only in origin share one entry. Holds for the score-valued
and the move-valued table. -/
theorem c9_keyed_piece_dest (cm : Bool) (t : ScoreTable) (mt : MoveTable)
    (pc : Piece) (m1 m2 : MoveFT) (v : Int) (mv : Nat)
    (hto : m1.toSq = m2.toSq) (hfrom : m1.fromSq ≠ m2.fromSq) :
    scoreLookup (scoreUpdate cm t pc m1.toSq v) pc m2 = valueUpdate cm (t pc m1.toSq) v
    ∧ moveLookup (moveUpdate mt pc m1.toSq mv) pc m2 = mv := by
  constructor
  · simp [scoreLookup, scoreUpdate, ← hto]
  · simp [moveLookup, moveUpdate, ← hto]

/-- Witness for C9: two concrete moves d1->f6 and e4->f6 with the same
destination square share the updated entry. -/
theorem c9_keyed_piece_dest_witness :
    (⟨10, 45⟩ : MoveFT).toSq = (⟨28, 45⟩ : MoveFT).toSq
    ∧ (⟨10, 45⟩ : MoveFT).fromSq ≠ (⟨28, 45⟩ : MoveFT).fromSq
    ∧ scoreLookup (scoreUpdate false clearedScores 4 (⟨10, 45⟩ : MoveFT).toSq 100) 4 ⟨28, 45⟩
        = valueUpdate false (clearedScores 4 (⟨10, 45⟩ : MoveFT).toSq) 100
    ∧ moveLookup (moveUpdate (fun _ _ => 0) 4 (⟨10, 45⟩ : MoveFT).toSq 77) 4 ⟨28, 45⟩ = 77 :=
  ⟨by decide, by decide,
   (c9_keyed_piece_dest false clearedScores (fun _ _ => 0) 4 ⟨10, 45⟩ ⟨28, 45⟩ 100 77
     (by decide) (by decide)).1,
   (c9_keyed_piece_dest false clearedScores (fun _ _ => 0) 4 ⟨10, 45⟩ ⟨28, 45⟩ 100 77
     (by decide) (by decide)).2⟩

/-! ### The Stages enumeration and the generators dispatch table -/

/-- The Stages enumeration (movepick.h lines 90-99), constructors in
declaration order. -/
inductive Stages where
  | MAIN_SEARCH | GOOD_CAPTURES | KILLERS | QUIET | BAD_CAPTURES
  | EVASION | ALL_EVASIONS
  | QSEARCH_WITH_CHECKS | QCAPTURES_1 | CHECKS
  | QSEARCH_WITHOUT_CHECKS | QCAPTURES_2
  | PROBCUT | PROBCUT_CAPTURES
  | RECAPTURE | RECAPTURES
  | STOP
deriving DecidableEq

/-- The integer value each enumerator takes in the C enum: consecutive
numbering from 0 in declaration order. -/
def stageVal : Stages → Nat
  | .MAIN_SEARCH => 0
  | .GOOD_CAPTURES => 1
  | .KILLERS => 2
  | .QUIET => 3
  | .BAD_CAPTURES => 4
  | .EVASION => 5
  | .ALL_EVASIONS => 6
  | .QSEARCH_WITH_CHECKS => 7
  | .QCAPTURES_1 => 8
  | .CHECKS => 9
  | .QSEARCH_WITHOUT_CHECKS => 10
  | .QCAPTURES_2 => 11
  | .PROBCUT => 12
  | .PROBCUT_CAPTURES => 13
  | .RECAPTURE => 14
  | .RECAPTURES => 15
  | .STOP => 16

/-- STAGE_NB = STOP + 1 (movepick.h line 98). -/
def STAGE_NB : Nat := 17

/-- The generators dispatch table (movepick.h lines 146-171), embedded by
the template argument of each entry in source order: the i-th entry of the
C++ array is &MovePicker::generate_next_stage<generatorsArg[i]>. -/
def generatorsArg : List Stages :=
  [.MAIN_SEARCH, .GOOD_CAPTURES, .KILLERS, .QUIET, .BAD_CAPTURES,
   .EVASION, .ALL_EVASIONS,
   .QSEARCH_WITH_CHECKS, .QCAPTURES_1, .CHECKS,
   .QSEARCH_WITHOUT_CHECKS, .QCAPTURES_2,
   .PROBCUT, .PROBCUT_CAPTURES,
   .RECAPTURE, .RECAPTURES,
   .STOP]

/-- Claim C8 as stated is false on the enumeration: the successor-value
transition rule cannot both hold at every stage and take the normal-search
family from BAD_CAPTURES to STOP, because STOP (value 16) is not the next
integer enumeration value after BAD_CAPTURES (value 4). -/
theorem c8_succ_layout_counterexample :
    ¬ (stageVal .GOOD_CAPTURES = stageVal .MAIN_SEARCH + 1
      ∧ stageVal .KILLERS = stageVal .GOOD_CAPTURES + 1
      ∧ stageVal .QUIET = stageVal .KILLERS + 1
      ∧ stageVal .BAD_CAPTURES = stageVal .QUIET + 1
      ∧ stageVal .STOP = stageVal .BAD_CAPTURES + 1) := by
  decide

/-- Claim C8 (amended): the normal-search stages MAIN_SEARCH through
BAD_CAPTURES occupy consecutive enumeration values 0..4, so the
next-integer-value transition is correct inside the family; but the
successor of BAD_CAPTURES is EVASION, not STOP: STOP has value 16
(= STAGE_NB - 1), so the family's final transition into the terminal stage
is not an integer-successor step. -/
theorem c8_amended_layout :
    stageVal .GOOD_CAPTURES = stageVal .MAIN_SEARCH + 1
    ∧ stageVal .KILLERS = stageVal .GOOD_CAPTURES + 1
    ∧ stageVal .QUIET = stageVal .KILLERS + 1
    ∧ stageVal .BAD_CAPTURES = stageVal .QUIET + 1
    ∧ stageVal .EVASION = stageVal .BAD_CAPTURES + 1
    ∧ Stages.EVASION ≠ Stages.STOP
    ∧ stageVal .STOP = 16
    ∧ STAGE_NB = stageVal .STOP + 1 := by
  decide

/-- Claim C10: the generators dispatch table has exactly STAGE_NB entries,
and for every stage s (STOP included) the entry at index stageVal s is the
instantiation for exactly stage s — indexing the table with the current
stage always selects that stage's own batch-generation routine. -/
theorem c10_generators_table :
    generatorsArg.length = STAGE_NB
    ∧ ∀ s : Stages, generatorsArg[stageVal s]? = some s := by
  refine ⟨rfl, ?_⟩
  intro s
  cases s <;> rfl

/-! ### The staged move picker (normal main-search family)

The implementation file of MovePicker (next_move, the generate_next_stage
bodies and the constructors) is not among the sources — only its
declarations in movepick.h are.  The definitions below therefore carry
doc comments starting `Modelled from the spec:` and follow §4.2-§4.4, §6
and §7 of the specification. -/

/-- Move encoding for the picker model; the engine reserves 0 for the
"no move" sentinel MOVE_NONE. -/
abbrev PMove := Nat

/-- The "no move" sentinel. -/
def MOVE_NONE : PMove := 0

/-- Modelled from the spec: movepick.cpp is missing, so the inputs a
normal-main-search picker draws from its collaborators (§6) are packaged
abstractly: the remembered hash move, the position's pseudo-legality and
capture queries, the static-exchange classification, the bulk-generated
capture and quiet batches, and the killer/countermove slots. -/
structure MPContext where
  ttMove : PMove
  pseudoLegal : PMove → Bool
  isCapture : PMove → Bool
  seeGood : PMove → Bool
  captures : List PMove
  quiets : List PMove
  killers : List PMove

/-- Modelled from the spec: the hash move is tried only when present and
pseudo-legal (§4.2 action (a), §8). -/
def ttOk (c : MPContext) : Bool :=
  c.ttMove != MOVE_NONE && c.pseudoLegal c.ttMove

/-- Modelled from the spec: the KILLERS stage tries the killer/countermove
slots one at a time; a slot that repeats an earlier slot, is not
pseudo-legal, is a capture, or equals the already-yielded hash move is
skipped silently (§4.2, §4.3 edge cases). -/
def killerYields (c : MPContext) : List PMove :=
  c.killers.dedup.filter fun k =>
    c.pseudoLegal k && !c.isCapture k && (!ttOk c || k != c.ttMove)

/-- Modelled from the spec: the GOOD_CAPTURES batch — generated captures the
exchange evaluation accepts, with the already-yielded hash move filtered
out (§4.3, §4.2 edge cases). -/
def goodCapBatch (c : MPContext) : List PMove :=
  (c.captures.filter fun m => c.seeGood m).filter fun m => !ttOk c || m != c.ttMove

/-- Modelled from the spec: the BAD_CAPTURES batch — the deferred losing
captures, surfaced after all quiet moves (§4.3). -/
def badCapBatch (c : MPContext) : List PMove :=
  (c.captures.filter fun m => !c.seeGood m).filter fun m => !ttOk c || m != c.ttMove

/-- Modelled from the spec: the QUIET batch — generated quiet moves with the
already-yielded hash move and killer-slot moves filtered out (§4.3). -/
def quietBatch (c : MPContext) : List PMove :=
  c.quiets.filter fun m => (!ttOk c || m != c.ttMove) && !(killerYields c).contains m

/-- Modelled from the spec: the MAIN_SEARCH stage yields the single recorded
hash move when still pseudo-legal (§4.2 action (a)). -/
def ttBatch (c : MPContext) : List PMove := if ttOk c then [c.ttMove] else []

/-- Modelled from the spec: the batch each stage of the normal-search family
produces, indexed by the stage's integer value (0 = MAIN_SEARCH through
4 = BAD_CAPTURES); stages of the other families and STOP produce nothing
for this picker. -/
def stageBatch (c : MPContext) (st : Nat) : List PMove :=
  if st = 0 then ttBatch c
  else if st = 1 then goodCapBatch c
  else if st = 2 then killerYields c
  else if st = 3 then quietBatch c
  else if st = 4 then badCapBatch c
  else []

/-- The picker's mutable footprint: the current stage value and the not yet
consumed part of the current batch. -/
structure MPState where
  stage : Nat
  rest : List PMove
deriving DecidableEq

/-- Modelled from the spec: advancing the stage machine — the stage moves to
the next integer value, regenerating, until a nonempty batch or the
terminal STOP value 16 is reached; STOP is absorbing (§4.2).  The fuel
argument only bounds the structural recursion (16 suffices from any
reachable stage). -/
def advanceStage (c : MPContext) : Nat → Nat → PMove × MPState
  | 0, st => (MOVE_NONE, ⟨st, []⟩)
  | f + 1, st =>
    if 16 ≤ st then (MOVE_NONE, ⟨st, []⟩)
    else
      match stageBatch c (st + 1) with
      | [] => advanceStage c f (st + 1)
      | m :: r => (m, ⟨st + 1, r⟩)

/-- Modelled from the spec: next_move() — pull the next move from the
current batch, or advance the stage machine; once the terminal stage is
reached and exhausted, the sentinel is returned (§4.4). -/
def next_move (c : MPContext) (s : MPState) : PMove × MPState :=
  match s.rest with
  | m :: r => (m, ⟨s.stage, r⟩)
  | [] => advanceStage c 16 s.stage

/-- Modelled from the spec: a picker freshly constructed for normal main
search starts in MAIN_SEARCH with its hash-move batch (§4.2 family 1, §6). -/
def initState (c : MPContext) : MPState := ⟨0, stageBatch c 0⟩

/-- The raw stream of the first n next_move() results. -/
def runMoves (c : MPContext) : Nat → MPState → List PMove
  | 0, _ => []
  | n + 1, s => (next_move c s).1 :: runMoves c n (next_move c s).2

/-- All batches strictly after stage st, in stage order. -/
def tailBatches (c : MPContext) (st : Nat) : List PMove :=
  if h : st < 16 then stageBatch c (st + 1) ++ tailBatches c (st + 1) else []
termination_by 16 - st

/-- Modelled from the spec: well-formedness of the collaborator data (§6):
each bulk-generated batch lists each move at most once, capture generation
produces captures and quiet generation non-captures, and neither a
generator nor a slot produces the reserved sentinel value. -/
abbrev WFContext (c : MPContext) : Prop :=
  c.captures.Nodup ∧ c.quiets.Nodup
  ∧ (∀ m ∈ c.captures, c.isCapture m = true)
  ∧ (∀ m ∈ c.quiets, c.isCapture m = false)
  ∧ MOVE_NONE ∉ c.captures ∧ MOVE_NONE ∉ c.quiets ∧ MOVE_NONE ∉ c.killers

/-! ### Trace lemmas for the picker model -/

theorem tailBatches_step (c : MPContext) (st : Nat) (h : st < 16) :
    tailBatches c st = stageBatch c (st + 1) ++ tailBatches c (st + 1) := by
  rw [tailBatches, dif_pos h]

theorem tailBatches_stop (c : MPContext) (st : Nat) (h : ¬ st < 16) :
    tailBatches c st = [] := by
  rw [tailBatches, dif_neg h]

theorem stageBatch_high (c : MPContext) (st : Nat) (h : 5 ≤ st) :
    stageBatch c st = [] := by
  unfold stageBatch
  rw [if_neg (by omega), if_neg (by omega), if_neg (by omega),
    if_neg (by omega), if_neg (by omega)]

theorem tailBatches_high (c : MPContext) :
    ∀ f st, 16 ≤ st + f → 4 ≤ st → tailBatches c st = [] := by
  intro f
  induction f with
  | zero => intro st h1 _; exact tailBatches_stop c st (by omega)
  | succ f ih =>
    intro st h1 h2
    by_cases h : st < 16
    · rw [tailBatches_step c st h, stageBatch_high c (st + 1) (by omega),
        ih (st + 1) (by omega) (by omega)]
      rfl
    · exact tailBatches_stop c st h

theorem pickerOutput_expand (c : MPContext) :
    stageBatch c 0 ++ tailBatches c 0
      = stageBatch c 0
        ++ (stageBatch c 1 ++ (stageBatch c 2 ++ (stageBatch c 3 ++ stageBatch c 4))) := by
  rw [tailBatches_step c 0 (by omega), tailBatches_step c 1 (by omega),
    tailBatches_step c 2 (by omega), tailBatches_step c 3 (by omega),
    tailBatches_high c 12 4 (by omega) (by omega)]
  simp

theorem stageBatch_no_sentinel (c : MPContext) (h : WFContext c) (k : Nat) :
    MOVE_NONE ∉ stageBatch c k := by
  obtain ⟨-, -, -, -, hc0, hq0, hk0⟩ := h
  unfold stageBatch
  split_ifs
  · -- ttBatch
    unfold ttBatch
    split_ifs with ht
    · intro hmem
      rw [List.mem_singleton] at hmem
      have := (Bool.and_eq_true _ _).mp ht
      rw [bne_iff_ne] at this
      exact this.1 hmem.symm
    · exact List.not_mem_nil _
  · -- goodCapBatch
    intro hmem
    exact hc0 ((List.mem_filter.mp (List.mem_filter.mp hmem).1).1)
  · -- killerYields
    intro hmem
    exact hk0 (List.mem_dedup.mp (List.mem_filter.mp hmem).1)
  · -- quietBatch
    intro hmem
    exact hq0 (List.mem_filter.mp hmem).1
  · -- badCapBatch
    intro hmem
    exact hc0 ((List.mem_filter.mp (List.mem_filter.mp hmem).1).1)
  · exact List.not_mem_nil _

theorem advanceStage_spec (c : MPContext) (hB : ∀ k, MOVE_NONE ∉ stageBatch c k) :
    ∀ f st, 16 ≤ f + st →
      ((advanceStage c f st).1 = MOVE_NONE
        ∧ (advanceStage c f st).2.rest = []
        ∧ tailBatches c (advanceStage c f st).2.stage = []
        ∧ tailBatches c st = [])
      ∨ ((advanceStage c f st).1 ≠ MOVE_NONE
        ∧ MOVE_NONE ∉ (advanceStage c f st).2.rest
        ∧ (advanceStage c f st).1
            :: ((advanceStage c f st).2.rest ++ tailBatches c (advanceStage c f st).2.stage)
          = tailBatches c st) := by
  intro f
  induction f with
  | zero =>
    intro st h
    left
    have h16 : ¬ st < 16 := by omega
    simp [advanceStage, tailBatches_stop c st h16]
  | succ f ih =>
    intro st h
    by_cases h16 : 16 ≤ st
    · left
      have hlt : ¬ st < 16 := by omega
      simp [advanceStage, h16, tailBatches_stop c st hlt]
    · cases hb : stageBatch c (st + 1) with
      | nil =>
        have hstep : advanceStage c (f + 1) st = advanceStage c f (st + 1) := by
          simp [advanceStage, h16, hb]
        have htb : tailBatches c st = tailBatches c (st + 1) := by
          rw [tailBatches_step c st (by omega), hb]
          rfl
        rw [hstep, htb]
        exact ih (st + 1) (by omega)
      | cons m r =>
        right
        have hstep : advanceStage c (f + 1) st = (m, ⟨st + 1, r⟩) := by
          simp [advanceStage, h16, hb]
        have hmem := hB (st + 1)
        rw [hb] at hmem
        rw [hstep]
        refine ⟨?_, ?_, ?_⟩
        · intro hx
          apply hmem
          rw [← hx]
          exact List.mem_cons_self m r
        · intro hx
          exact hmem (List.mem_cons_of_mem m hx)
        · rw [tailBatches_step c st (by omega), hb]
          rfl

theorem runMoves_filter_sublist (c : MPContext) (hB : ∀ k, MOVE_NONE ∉ stageBatch c k) :
    ∀ n s, MOVE_NONE ∉ s.rest →
      ((runMoves c n s).filter fun m => m != MOVE_NONE).Sublist
        (s.rest ++ tailBatches c s.stage) := by
  intro n
  induction n with
  | zero =>
    intro s _
    simp [runMoves]
  | succ n ih =>
    intro s hs
    obtain ⟨st, rest⟩ := s
    cases rest with
    | cons m r =>
      have hm : m ≠ MOVE_NONE := by
        intro hx
        apply hs
        rw [← hx]
        exact List.mem_cons_self m r
      have hr : MOVE_NONE ∉ r := fun hx => hs (List.mem_cons_of_mem m hx)
      have hnext : next_move c ⟨st, m :: r⟩ = (m, ⟨st, r⟩) := rfl
      have hrun : runMoves c (n + 1) ⟨st, m :: r⟩ = m :: runMoves c n ⟨st, r⟩ := by
        simp [runMoves, hnext]
      rw [hrun]
      rw [List.filter_cons_of_pos (by simpa using hm)]
      exact List.Sublist.cons₂ m (ih ⟨st, r⟩ hr)
    | nil =>
      have hnext : next_move c ⟨st, []⟩ = advanceStage c 16 st := rfl
      have hrun : runMoves c (n + 1) ⟨st, []⟩
          = (advanceStage c 16 st).1 :: runMoves c n (advanceStage c 16 st).2 := by
        simp [runMoves, hnext]
      rw [hrun]
      rcases advanceStage_spec c hB 16 st (by omega) with ⟨h1, h2, h3, _⟩ | ⟨h1, h2, h3⟩
      · rw [h1, List.filter_cons_of_neg (by simp)]
        have hsub := ih (advanceStage c 16 st).2 (by rw [h2]; exact List.not_mem_nil _)
        rw [h2, h3] at hsub
        simp only [List.nil_append] at hsub
        rw [List.sublist_nil.mp hsub]
        exact List.nil_sublist _
      · rw [List.filter_cons_of_pos (by simpa using h1)]
        have hsub := ih (advanceStage c 16 st).2 h2
        have : ((advanceStage c 16 st).1
              :: ((runMoves c n (advanceStage c 16 st).2).filter fun m => m != MOVE_NONE)).Sublist
            ((advanceStage c 16 st).1
              :: ((advanceStage c 16 st).2.rest ++ tailBatches c (advanceStage c 16 st).2.stage)) :=
          List.Sublist.cons₂ _ hsub
        rw [h3] at this
        simpa using this

/-! ### No-duplicate assembly -/

theorem mem_ttBatch {c : MPContext} {x : PMove} (h : x ∈ ttBatch c) :
    ttOk c = true ∧ x = c.ttMove := by
  unfold ttBatch at h
  split_ifs at h with ht
  · exact ⟨ht, List.mem_singleton.mp h⟩
  · exact absurd h (List.not_mem_nil _)

theorem mem_goodCapBatch {c : MPContext} {x : PMove} (h : x ∈ goodCapBatch c) :
    x ∈ c.captures ∧ c.seeGood x = true ∧ (ttOk c = true → x ≠ c.ttMove) := by
  unfold goodCapBatch at h
  rw [List.mem_filter] at h
  obtain ⟨h1, h2⟩ := h
  rw [List.mem_filter] at h1
  refine ⟨h1.1, h1.2, ?_⟩
  intro ht
  rw [ht] at h2
  simpa using h2

theorem mem_badCapBatch {c : MPContext} {x : PMove} (h : x ∈ badCapBatch c) :
    x ∈ c.captures ∧ c.seeGood x = false ∧ (ttOk c = true → x ≠ c.ttMove) := by
  unfold badCapBatch at h
  rw [List.mem_filter] at h
  obtain ⟨h1, h2⟩ := h
  rw [List.mem_filter] at h1
  refine ⟨h1.1, by simpa using h1.2, ?_⟩
  intro ht
  rw [ht] at h2
  simpa using h2

theorem mem_killerYields {c : MPContext} {x : PMove} (h : x ∈ killerYields c) :
    c.isCapture x = false ∧ (ttOk c = true → x ≠ c.ttMove) := by
  unfold killerYields at h
  rw [List.mem_filter, Bool.and_eq_true, Bool.and_eq_true] at h
  refine ⟨by simpa using h.2.1.2, ?_⟩
  intro ht
  have h2 := h.2.2
  rw [ht] at h2
  simpa using h2

theorem mem_quietBatch {c : MPContext} {x : PMove} (h : x ∈ quietBatch c) :
    x ∈ c.quiets ∧ (ttOk c = true → x ≠ c.ttMove) ∧ x ∉ killerYields c := by
  unfold quietBatch at h
  rw [List.mem_filter, Bool.and_eq_true] at h
  refine ⟨h.1, ?_, ?_⟩
  · intro ht
    have h2 := h.2.1
    rw [ht] at h2
    simpa using h2
  · have h2 := h.2.2
    simpa using h2

theorem pickerBatches_nodup (c : MPContext) (h : WFContext c) :
    (stageBatch c 0
      ++ (stageBatch c 1 ++ (stageBatch c 2 ++ (stageBatch c 3 ++ stageBatch c 4)))).Nodup := by
  obtain ⟨hcN, hqN, hcap, hqcap, -, -, -⟩ := h
  rw [show stageBatch c 0 = ttBatch c from rfl, show stageBatch c 1 = goodCapBatch c from rfl,
    show stageBatch c 2 = killerYields c from rfl, show stageBatch c 3 = quietBatch c from rfl,
    show stageBatch c 4 = badCapBatch c from rfl]
  have httN : (ttBatch c).Nodup := by
    unfold ttBatch
    split_ifs <;> simp
  have hgN : (goodCapBatch c).Nodup := (hcN.filter _).filter _
  have hkN : (killerYields c).Nodup := (List.nodup_dedup _).filter _
  have hquN : (quietBatch c).Nodup := hqN.filter _
  have hbN : (badCapBatch c).Nodup := (hcN.filter _).filter _
  have hDtt : ∀ x ∈ ttBatch c,
      x ∉ goodCapBatch c ∧ x ∉ killerYields c ∧ x ∉ quietBatch c ∧ x ∉ badCapBatch c := by
    intro x hx
    obtain ⟨ht, rfl⟩ := mem_ttBatch hx
    exact ⟨fun hm => (mem_goodCapBatch hm).2.2 ht rfl,
      fun hm => (mem_killerYields hm).2 ht rfl,
      fun hm => (mem_quietBatch hm).2.1 ht rfl,
      fun hm => (mem_badCapBatch hm).2.2 ht rfl⟩
  have hDgk : (goodCapBatch c).Disjoint (killerYields c) := by
    intro a ha hb
    have h1 := hcap a (mem_goodCapBatch ha).1
    have h2 := (mem_killerYields hb).1
    rw [h1] at h2
    exact absurd h2 (by simp)
  have hDgq : (goodCapBatch c).Disjoint (quietBatch c) := by
    intro a ha hb
    have h1 := hcap a (mem_goodCapBatch ha).1
    have h2 := hqcap a (mem_quietBatch hb).1
    rw [h1] at h2
    exact absurd h2 (by simp)
  have hDgb : (goodCapBatch c).Disjoint (badCapBatch c) := by
    intro a ha hb
    have h1 := (mem_goodCapBatch ha).2.1
    have h2 := (mem_badCapBatch hb).2.1
    rw [h1] at h2
    exact absurd h2 (by simp)
  have hDkq : (killerYields c).Disjoint (quietBatch c) := by
    intro a ha hb
    exact (mem_quietBatch hb).2.2 ha
  have hDkb : (killerYields c).Disjoint (badCapBatch c) := by
    intro a ha hb
    have h1 := hcap a (mem_badCapBatch hb).1
    have h2 := (mem_killerYields ha).1
    rw [h1] at h2
    exact absurd h2 (by simp)
  have hDqb : (quietBatch c).Disjoint (badCapBatch c) := by
    intro a ha hb
    have h1 := hcap a (mem_badCapBatch hb).1
    have h2 := hqcap a (mem_quietBatch ha).1
    rw [h1] at h2
    exact absurd h2 (by simp)
  refine List.nodup_append.mpr ⟨httN, ?_, ?_⟩
  · refine List.nodup_append.mpr ⟨hgN, ?_, ?_⟩
    · refine List.nodup_append.mpr ⟨hkN, ?_, ?_⟩
      · exact List.nodup_append.mpr ⟨hquN, hbN, hDqb⟩
      · rw [List.disjoint_append_right]
        exact ⟨hDkq, hDkb⟩
    · rw [List.disjoint_append_right, List.disjoint_append_right]
      exact ⟨hDgk, hDgq, hDgb⟩
  · intro a ha
    have h4 := hDtt a ha
    rw [List.mem_append, List.mem_append, List.mem_append]
    rintro (hb | hb | hb | hb)
    · exact h4.1 hb
    · exact h4.2.1 hb
    · exact h4.2.2.1 hb
    · exact h4.2.2.2 hb

theorem pickerOutput_nodup (c : MPContext) (h : WFContext c) :
    (stageBatch c 0 ++ tailBatches c 0).Nodup := by
  rw [pickerOutput_expand]
  exact pickerBatches_nodup c h

/-! ### Claims C5-C7 -/

/-- Claim C5 (MovePicker modelled from the spec): across any number of
next_move() calls from a freshly constructed normal-search picker, no move
other than the sentinel is returned more than once, even when the hash
move or a killer also appears in a bulk-generated batch. -/
theorem c5_no_duplicate_moves (c : MPContext) (h : WFContext c) (n : Nat) :
    ((runMoves c n (initState c)).filter fun m => m != MOVE_NONE).Nodup := by
  have hB := stageBatch_no_sentinel c h
  have hsub := runMoves_filter_sublist c hB n (initState c) (hB 0)
  exact List.Nodup.sublist hsub (pickerOutput_nodup c h)

/-- A concrete context in which the hash move 5 is pseudo-legal and also
occurs inside the generated capture batch, and killer 11 also occurs in
the quiet batch. -/
def demoCtxA : MPContext :=
  ⟨5, fun _ => true, fun m => decide (m ≤ 6), fun m => decide (m ≤ 4), [3, 4, 5], [11, 12], [11]⟩

/-- A concrete context whose hash move is absent (MOVE_NONE). -/
def demoCtxB : MPContext :=
  ⟨0, fun _ => true, fun m => decide (m ≤ 6), fun m => decide (m ≤ 3), [3, 4], [11, 12], [11]⟩

/-- Witness for C5: a full consumption of the demo picker is duplicate-free. -/
theorem c5_no_duplicate_moves_witness :
    WFContext demoCtxA
    ∧ ((runMoves demoCtxA 10 (initState demoCtxA)).filter fun m => m != MOVE_NONE).Nodup :=
  ⟨by decide, c5_no_duplicate_moves demoCtxA (by decide) 10⟩

/-- Claim C6 (MovePicker modelled from the spec): on a normally constructed
main-search picker, if the hash move is present and pseudo-legal the very
first next_move() call returns it; otherwise the stage advances directly
to generated captures and the first yield is the head of that batch. -/
theorem c6_hash_move_first (c : MPContext) :
    (ttOk c = true → next_move c (initState c) = (c.ttMove, ⟨0, []⟩))
    ∧ (ttOk c = false → ∀ m r, stageBatch c 1 = m :: r →
        next_move c (initState c) = (m, ⟨1, r⟩)) := by
  constructor
  · intro h
    show next_move c ⟨0, stageBatch c 0⟩ = _
    rw [show stageBatch c 0 = ttBatch c from rfl]
    unfold ttBatch
    rw [if_pos h]
    rfl
  · intro h m r hb
    have h0 : stageBatch c 0 = [] := by
      rw [show stageBatch c 0 = ttBatch c from rfl]
      unfold ttBatch
      rw [if_neg (by simp [h])]
    show next_move c ⟨0, stageBatch c 0⟩ = _
    rw [h0]
    show advanceStage c 16 0 = _
    rw [show advanceStage c 16 0
        = (match stageBatch c 1 with
            | [] => advanceStage c 15 1
            | m :: r => (m, ⟨1, r⟩)) from rfl]
    rw [hb]

/-- Witness for C6: in demoCtxA the pseudo-legal hash move 5 is yielded
first; in demoCtxB (no hash move) the head 3 of the good-capture batch is
yielded first. -/
theorem c6_hash_move_first_witness :
    (ttOk demoCtxA = true
      ∧ next_move demoCtxA (initState demoCtxA) = (demoCtxA.ttMove, ⟨0, []⟩))
    ∧ (ttOk demoCtxB = false
      ∧ stageBatch demoCtxB 1 = 3 :: []
      ∧ next_move demoCtxB (initState demoCtxB) = (3, ⟨1, []⟩)) :=
  ⟨⟨by decide, (c6_hash_move_first demoCtxA).1 (by decide)⟩,
   ⟨by decide, by decide, (c6_hash_move_first demoCtxB).2 (by decide) 3 [] (by decide)⟩⟩

/-- Claim C7 (MovePicker modelled from the spec): once the terminal STOP
stage (value 16) has been reached with its batch exhausted, every
subsequent next_move() call returns the sentinel MOVE_NONE — calling past
exhaustion any number of times is safe and yields only sentinels. -/
theorem c7_exhaustion_idempotent (c : MPContext) (n : Nat) :
    runMoves c n ⟨16, []⟩ = List.replicate n MOVE_NONE := by
  induction n with
  | zero => rfl
  | succ n ih =>
    have hstep : next_move c ⟨16, []⟩ = (MOVE_NONE, ⟨16, []⟩) := rfl
    rw [List.replicate_succ, show runMoves c (n + 1) ⟨16, []⟩
        = (next_move c ⟨16, []⟩).1 :: runMoves c n (next_move c ⟨16, []⟩).2 from rfl,
      hstep, ih]
